import Mathlib

/-!
Shallow embedding of the citation-resolution engine and the research-loop
controller of the gemini-fullstack-langgraph quickstart (Node.js backend).

JavaScript strings are modelled as lists of characters (`Str`); JavaScript
numbers appearing as indices, ids and counters are modelled as `Nat`
(they are always non-negative in the embedded code); nullable or optional
record fields are modelled with `Option`.
-/

/-- A JavaScript string, modelled as its list of characters. -/
abbrev Str := List Char

/-- Mirrors interface SourceInfo, src/agent/types: label, shortUrl, value. -/
structure SourceInfo where
  label : Str
  shortUrl : Str
  value : Str
deriving DecidableEq, Repr

/-- Mirrors interface CitationInfo: startIndex, endIndex, segments. -/
structure CitationInfo where
  startIndex : Nat
  endIndex : Nat
  segments : List SourceInfo
deriving DecidableEq, Repr

/-- The comparator used by insertCitationMarkers (utils, lines 63-68):
citation a precedes citation b when a.endIndex > b.endIndex, or the end
indices are equal and a.startIndex >= b.startIndex (descending end index,
ties broken by descending start index). -/
abbrev citeR (a b : CitationInfo) : Prop :=
  b.endIndex < a.endIndex ∨ (b.endIndex = a.endIndex ∧ b.startIndex ≤ a.startIndex)

instance : IsTotal CitationInfo citeR :=
  ⟨fun a b => by
    rcases Nat.lt_trichotomy a.endIndex b.endIndex with h | h | h
    · exact Or.inr (Or.inl h)
    · rcases Nat.le_total b.startIndex a.startIndex with h2 | h2
      · exact Or.inl (Or.inr ⟨h.symm, h2⟩)
      · exact Or.inr (Or.inr ⟨h, h2⟩)
    · exact Or.inl (Or.inl h)⟩

instance : IsTrans CitationInfo citeR :=
  ⟨fun a b c hab hbc => by
    rcases hab with h1 | ⟨e1, s1⟩
    · rcases hbc with h2 | ⟨e2, _⟩
      · exact Or.inl (h2.trans h1)
      · exact Or.inl (e2 ▸ h1)
    · rcases hbc with h2 | ⟨e2, s2⟩
      · exact Or.inl (e1 ▸ h2)
      · exact Or.inr ⟨e2.trans e1, s2.trans s1⟩⟩

/-- The marker text built for one citation (utils, lines 73-77): for each
segment, append a space, an open bracket, the label, a close bracket, an
open paren, the short url and a close paren. -/
def markerOf (c : CitationInfo) : Str :=
  c.segments.foldl
    (fun acc s =>
      acc ++ (" [".toList ++ s.label ++ "](".toList ++ s.shortUrl ++ ")".toList))
    []

/-- One splice step (utils, line 80): text.slice(0, endIdx) + marker +
text.slice(endIdx). slice clamps an out-of-range index, as take/drop do. -/
def spliceOne (t : Str) (c : CitationInfo) : Str :=
  t.take c.endIndex ++ markerOf c ++ t.drop c.endIndex

/-- Mirrors insertCitationMarkers (utils, lines 61-84): sort the citations
with the descending comparator (JavaScript sort is stable; so is
insertionSort with this total preorder), then splice each marker at its
citation's end index, processing the sorted list front to back. -/
def insertCitationMarkers (text : Str) (citationsList : List CitationInfo) : Str :=
  (List.insertionSort citeR citationsList).foldl spliceOne text

/-- C7: the spec example. The code inserts the marker at character offset 12
of "The sky is blue.", which falls in the middle of the word "blue", so the
output is NOT the string claimed by the spec. -/
theorem c7_counterexample :
    insertCitationMarkers "The sky is blue.".toList
      [⟨4, 12, [⟨"NASA".toList, "s1".toList, "http://nasa.gov".toList⟩]⟩]
      ≠ "The sky [NASA](s1) is blue.".toList := by
  decide

/-- C7 (amended): applied to "The sky is blue." and the single citation with
startIndex 4, endIndex 12 and source {label NASA, shortUrl s1},
insertCitationMarkers splices the marker at offset 12 and returns
"The sky is b [NASA](s1)lue.". -/
theorem c7_insert_marker_example :
    insertCitationMarkers "The sky is blue.".toList
      [⟨4, 12, [⟨"NASA".toList, "s1".toList, "http://nasa.gov".toList⟩]⟩]
      = "The sky is b [NASA](s1)lue.".toList := by
  decide

/-- C1: two citations with identical start and end offsets but different
labels: the two input orders give different outputs, because the stable sort
keeps equal-key citations in input order and each marker is spliced at the
same offset, in front of the marker spliced before it. -/
theorem c1_counterexample :
    insertCitationMarkers "ab".toList
        [⟨0, 1, [⟨"x".toList, "u".toList, "v".toList⟩]⟩,
         ⟨0, 1, [⟨"y".toList, "u".toList, "v".toList⟩]⟩]
      ≠ insertCitationMarkers "ab".toList
        [⟨0, 1, [⟨"y".toList, "u".toList, "v".toList⟩]⟩,
         ⟨0, 1, [⟨"x".toList, "u".toList, "v".toList⟩]⟩] := by
  decide

/-- Sort key of a citation: the pair of offsets the comparator looks at. -/
def citeKey (c : CitationInfo) : Nat × Nat := (c.endIndex, c.startIndex)

/-- Two citations relate both ways under the comparator exactly when their
sort keys coincide. -/
theorem citeR_antisymm_key {a b : CitationInfo} (hab : citeR a b) (hba : citeR b a) :
    citeKey a = citeKey b := by
  rcases hab with h1 | ⟨e1, s1⟩
  · rcases hba with h2 | ⟨e2, _⟩
    · exact absurd (h1.trans h2) (lt_irrefl _)
    · exact absurd (e2 ▸ h1) (lt_irrefl _)
  · rcases hba with h2 | ⟨e2, s2⟩
    · exact absurd (e1 ▸ h2) (lt_irrefl _)
    · simp only [citeKey, Prod.mk.injEq]
      exact ⟨e2, le_antisymm s2 s1⟩

/-- Two sorted lists that are permutations of one another and whose sort
keys are pairwise distinct are equal. -/
theorem sorted_perm_unique :
    ∀ {l1 l2 : List CitationInfo}, l1.Perm l2 →
      l1.Sorted citeR → l2.Sorted citeR →
      l1.Pairwise (fun a b => citeKey a ≠ citeKey b) → l1 = l2
  | [], l2, hp, _, _, _ => (hp.nil_eq).symm ▸ rfl
  | a :: t1, [], hp, _, _, _ => absurd hp.symm (by simp)
  | a :: t1, b :: t2, hp, hs1, hs2, hk => by
    rcases List.sorted_cons.1 hs1 with ⟨ha1, hs1t⟩
    rcases List.sorted_cons.1 hs2 with ⟨hb2, hs2t⟩
    rcases List.pairwise_cons.1 hk with ⟨hka, hkt⟩
    by_cases hab : a = b
    · subst hab
      have := sorted_perm_unique hp.cons_inv hs1t hs2t hkt
      rw [this]
    · have hbmem : b ∈ t1 := by
        have : b ∈ a :: t1 := hp.symm.subset (List.mem_cons_self _ _)
        rcases List.mem_cons.1 this with h | h
        · exact absurd h.symm hab
        · exact h
      have hamem : a ∈ t2 := by
        have : a ∈ b :: t2 := hp.subset (List.mem_cons_self _ _)
        rcases List.mem_cons.1 this with h | h
        · exact absurd h hab
        · exact h
      exact absurd (citeR_antisymm_key (ha1 b hbmem) (hb2 a hamem)) (hka b hbmem)

/-- C1 (amended): insertCitationMarkers is invariant under permutation of
the citation list, provided no two citations share both their end offset
and their start offset; with fully tied offsets the relative order of the
spliced markers follows the input order (see the counterexample). -/
theorem c1_insert_markers_perm_invariant (text : Str) (l1 l2 : List CitationInfo)
    (hp : l1.Perm l2)
    (hk : l1.Pairwise fun a b => citeKey a ≠ citeKey b) :
    insertCitationMarkers text l1 = insertCitationMarkers text l2 := by
  have p1 : (List.insertionSort citeR l1).Perm (List.insertionSort citeR l2) :=
    ((List.perm_insertionSort citeR l1).trans hp).trans
      (List.perm_insertionSort citeR l2).symm
  have hk1 : (List.insertionSort citeR l1).Pairwise
      (fun a b => citeKey a ≠ citeKey b) :=
    (List.Perm.pairwise_iff (fun h e => h e.symm)
      (List.perm_insertionSort citeR l1)).2 hk
  have heq : List.insertionSort citeR l1 = List.insertionSort citeR l2 :=
    sorted_perm_unique p1
      (List.sorted_insertionSort citeR l1) (List.sorted_insertionSort citeR l2) hk1
  unfold insertCitationMarkers
  rw [heq]

/-- C1 witness: the invariance theorem applied to a two-citation list with
distinct sort keys and its transposition. -/
theorem c1_witness :
    insertCitationMarkers "ab".toList
        [⟨0, 1, [⟨"x".toList, "u".toList, "v".toList⟩]⟩,
         ⟨0, 2, [⟨"y".toList, "u".toList, "v".toList⟩]⟩]
      = insertCitationMarkers "ab".toList
        [⟨0, 2, [⟨"y".toList, "u".toList, "v".toList⟩]⟩,
         ⟨0, 1, [⟨"x".toList, "u".toList, "v".toList⟩]⟩] :=
  c1_insert_markers_perm_invariant "ab".toList _ _
    (List.Perm.swap _ _ _) (by decide)

/-- Decimal digit character, used to model how JavaScript renders a number
inside a template literal. -/
def digitChar : Nat → Char
  | 0 => '0' | 1 => '1' | 2 => '2' | 3 => '3' | 4 => '4'
  | 5 => '5' | 6 => '6' | 7 => '7' | 8 => '8' | 9 => '9'
  | _ => '*'

/-- Numeric value of a digit character. -/
def digitVal (c : Char) : Nat := c.toNat - 48

/-- Fuel-indexed decimal rendering; the fuel only serves to make the
recursion structural, any fuel above the number itself is enough. -/
def natStrAux : Nat → Nat → Str
  | 0, _ => []
  | fuel + 1, n =>
    if n < 10 then [digitChar n]
    else natStrAux fuel (n / 10) ++ [digitChar (n % 10)]

/-- Decimal rendering of a natural number, as JavaScript template literals
render a non-negative integer. -/
def natStr (n : Nat) : Str := natStrAux (n + 1) n

/-- Decimal decoding, inverse of natStr on its image. -/
def decodeStr (s : Str) : Nat := s.foldl (fun a c => a * 10 + digitVal c) 0

theorem digitVal_digitChar : ∀ n, n < 10 → digitVal (digitChar n) = n := by
  decide

theorem decodeStr_append_digit (xs : Str) (c : Char) :
    decodeStr (xs ++ [c]) = decodeStr xs * 10 + digitVal c := by
  simp [decodeStr, List.foldl_append]

theorem decodeStr_natStrAux : ∀ fuel n, n < fuel → decodeStr (natStrAux fuel n) = n := by
  intro fuel
  induction fuel with
  | zero => intro n h; exact absurd h (Nat.not_lt_zero n)
  | succ f ih =>
    intro n h
    by_cases h10 : n < 10
    · simp [natStrAux, h10, decodeStr, digitVal_digitChar n h10]
    · have hpos : 0 < n := by omega
      have hdiv : n / 10 < n := Nat.div_lt_self hpos (by omega)
      have hf : n / 10 < f := by omega
      simp only [natStrAux, h10, if_false, decodeStr_append_digit]
      rw [ih (n / 10) hf]
      have := digitVal_digitChar (n % 10) (Nat.mod_lt n (by omega))
      rw [this]
      omega

theorem decodeStr_natStr (n : Nat) : decodeStr (natStr n) = n :=
  decodeStr_natStrAux (n + 1) n (Nat.lt_succ_self n)

theorem natStr_injective {m n : Nat} (h : natStr m = natStr n) : m = n := by
  have := decodeStr_natStr m
  rw [h, decodeStr_natStr n] at this
  exact this.symm

theorem natStr_single {n : Nat} (h : n < 10) : natStr n = [digitChar n] := by
  simp [natStr, natStrAux, h]

/-- The fixed base of every minted short identifier (utils, line 41). -/
def shortUrlBase : Str := "https://vertexaisearch.cloud.google.com/id/".toList

/-- The short identifier minted for batch id and first-occurrence index idx:
the template literal base + id + "-" + idx (utils, line 48). -/
def mkShortUrl (id idx : Nat) : Str :=
  shortUrlBase ++ natStr id ++ '-' :: natStr idx

theorem mkShortUrl_idx_injective {id i j : Nat} (h : mkShortUrl id i = mkShortUrl id j) :
    i = j := by
  unfold mkShortUrl at h
  have h1 := List.append_cancel_left h
  injection h1 with h2 h3
  exact natStr_injective h3

/-- Mirrors the web field of a grounding chunk (types): uri and title,
both optional. -/
structure WebInfo where
  uri : Option Str
  title : Option Str
deriving DecidableEq, Repr

/-- Mirrors interface GroundingChunk (types): an optional web record. -/
structure GroundingChunk where
  web : Option WebInfo
deriving DecidableEq, Repr

/-- The url extracted from a chunk (utils, line 42): site.web?.uri or the
empty string when web or uri is missing. -/
def chunkUrl (site : GroundingChunk) : Str :=
  (site.web.bind WebInfo.uri).getD []

/-- First-match lookup in an association list, modelling property access
on the JavaScript object used as a map. -/
def lookupStr : List (Str × Str) → Str → Option Str
  | [], _ => none
  | e :: m, k => if e.1 = k then some e.2 else lookupStr m k

theorem lookupStr_nil (k : Str) : lookupStr [] k = none := rfl

theorem lookupStr_cons (e : Str × Str) (m : List (Str × Str)) (k : Str) :
    lookupStr (e :: m) k = if e.1 = k then some e.2 else lookupStr m k := rfl

theorem lookupStr_eq_none_iff (m : List (Str × Str)) (k : Str) :
    lookupStr m k = none ↔ ∀ e ∈ m, e.1 ≠ k := by
  induction m with
  | nil => simp [lookupStr_nil]
  | cons e m ih =>
    by_cases h : e.1 = k
    · simp [lookupStr_cons, h]
    · simp [lookupStr_cons, h, ih]

theorem lookupStr_append_of_some {m : List (Str × Str)} {k v : Str}
    (h : lookupStr m k = some v) (m2 : List (Str × Str)) :
    lookupStr (m ++ m2) k = some v := by
  induction m with
  | nil => rw [lookupStr_nil] at h; exact absurd h (by simp)
  | cons e m ih =>
    rw [List.cons_append, lookupStr_cons]
    rw [lookupStr_cons] at h
    by_cases he : e.1 = k
    · rw [if_pos he] at h ⊢; exact h
    · rw [if_neg he] at h ⊢; exact ih h

theorem lookupStr_append_of_none {m : List (Str × Str)} {k : Str}
    (h : lookupStr m k = none) (m2 : List (Str × Str)) :
    lookupStr (m ++ m2) k = lookupStr m2 k := by
  induction m with
  | nil => rw [List.nil_append]
  | cons e m ih =>
    rw [lookupStr_cons] at h
    by_cases he : e.1 = k
    · rw [if_pos he] at h; exact absurd h (by simp)
    · rw [if_neg he] at h
      rw [List.cons_append, lookupStr_cons, if_neg he]
      exact ih h

theorem lookupStr_mem {m : List (Str × Str)} {k v : Str}
    (h : lookupStr m k = some v) : (k, v) ∈ m := by
  induction m with
  | nil => rw [lookupStr_nil] at h; exact absurd h (by simp)
  | cons e m ih =>
    rw [lookupStr_cons] at h
    by_cases he : e.1 = k
    · rw [if_pos he] at h
      have : e = (k, v) := by
        cases e
        simp only [Option.some.injEq] at h
        simp_all
      exact this ▸ List.mem_cons_self _ _
    · rw [if_neg he] at h
      exact List.mem_cons.2 (Or.inr (ih h))

/-- One iteration of the forEach loop in resolveUrls (utils, lines 46-50):
skip the url when it is empty or already mapped (the JavaScript test is
falsiness of resolvedMap[url]; minted values are never empty, so that test
is exactly absence from the map); otherwise bind the url to the identifier
minted from the batch id and the current scan index. -/
def resolveStep (id : Nat) (m : List (Str × Str)) (idx : Nat) (url : Str) :
    List (Str × Str) :=
  if url ≠ [] ∧ lookupStr m url = none then m ++ [(url, mkShortUrl id idx)] else m

/-- The forEach loop of resolveUrls with its running index. -/
def resolveAux (id : Nat) : Nat → List Str → List (Str × Str) → List (Str × Str)
  | _, [], m => m
  | idx, url :: rest, m => resolveAux id (idx + 1) rest (resolveStep id m idx url)

/-- Mirrors resolveUrls (utils, lines 40-53): map each chunk to its url
(empty when web or uri is missing), then walk the urls with their indices
building the map from first-seen url to minted short identifier. -/
def resolveUrls (urlsToResolve : List GroundingChunk) (id : Nat) : List (Str × Str) :=
  resolveAux id 0 (urlsToResolve.map chunkUrl) []

/-- Index of the first occurrence of u in a list of urls. -/
def firstIdx (u : Str) : List Str → Nat
  | [] => 0
  | x :: xs => if x = u then 0 else firstIdx u xs + 1

/-- The string v occurs contiguously inside the string w. -/
def substrOf (v w : Str) : Prop := ∃ s t, s ++ v ++ t = w

/-- Invariant of the url-resolution loop: every entry has a non-empty key
and a value minted from an index below the bound, and entries are pairwise
distinct in both components. -/
def mapInv (id k : Nat) (m : List (Str × Str)) : Prop :=
  (∀ e ∈ m, e.1 ≠ [] ∧ ∃ i, i < k ∧ e.2 = mkShortUrl id i) ∧
  m.Pairwise (fun a b => a.1 ≠ b.1 ∧ a.2 ≠ b.2)

theorem mapInv_mono {id k k2 : Nat} {m : List (Str × Str)}
    (h : mapInv id k m) (hk : k ≤ k2) : mapInv id k2 m := by
  refine ⟨fun e he => ?_, h.2⟩
  obtain ⟨hne, i, hi, hv⟩ := h.1 e he
  exact ⟨hne, i, lt_of_lt_of_le hi hk, hv⟩

theorem mapInv_step {id k : Nat} {m : List (Str × Str)} (url : Str)
    (h : mapInv id k m) : mapInv id (k + 1) (resolveStep id m k url) := by
  unfold resolveStep
  by_cases hc : url ≠ [] ∧ lookupStr m url = none
  · rw [if_pos hc]
    constructor
    · intro e he
      rcases List.mem_append.1 he with he1 | he1
      · obtain ⟨hne, i, hi, hv⟩ := h.1 e he1
        exact ⟨hne, i, Nat.lt_succ_of_lt hi, hv⟩
      · rcases List.mem_singleton.1 he1 with rfl
        exact ⟨hc.1, k, Nat.lt_succ_self k, rfl⟩
    · refine List.pairwise_append.2 ⟨h.2, List.pairwise_singleton _ _, ?_⟩
      intro a ha b hb
      rcases List.mem_singleton.1 hb with rfl
      obtain ⟨_, i, hi, hv⟩ := h.1 a ha
      refine ⟨(lookupStr_eq_none_iff m url).1 hc.2 a ha, ?_⟩
      intro hv2
      rw [hv] at hv2
      exact absurd (mkShortUrl_idx_injective hv2) (Nat.ne_of_lt hi)
  · rw [if_neg hc]
    exact mapInv_mono h (Nat.le_succ k)

theorem mapInv_run {id : Nat} :
    ∀ (l : List Str) (k : Nat) (m : List (Str × Str)),
      mapInv id k m → mapInv id (k + l.length) (resolveAux id k l m)
  | [], k, m, h => by simpa [resolveAux] using h
  | url :: rest, k, m, h => by
    have step := mapInv_step url h
    have := mapInv_run rest (k + 1) (resolveStep id m k url) step
    simpa [resolveAux, Nat.add_comm, Nat.add_left_comm, Nat.add_assoc] using this

theorem resolveUrls_inv (chunks : List GroundingChunk) (id : Nat) :
    mapInv id chunks.length (resolveUrls chunks id) := by
  have h0 : mapInv id 0 ([] : List (Str × Str)) :=
    ⟨fun e he => absurd he (List.not_mem_nil e), List.Pairwise.nil⟩
  have := mapInv_run (chunks.map chunkUrl) 0 [] h0
  simpa [resolveUrls, List.length_map] using this

theorem resolveAux_lookup_some (id : Nat) :
    ∀ (l : List Str) (k : Nat) (m : List (Str × Str)) (u v : Str),
      lookupStr m u = some v → lookupStr (resolveAux id k l m) u = some v
  | [], _, _, _, _, h => h
  | url :: rest, k, m, u, v, h => by
    apply resolveAux_lookup_some id rest (k + 1)
    unfold resolveStep
    by_cases hc : url ≠ [] ∧ lookupStr m url = none
    · rw [if_pos hc]; exact lookupStr_append_of_some h _
    · rw [if_neg hc]; exact h

theorem resolveAux_lookup_first (id : Nat) :
    ∀ (l : List Str) (k : Nat) (m : List (Str × Str)) (u : Str),
      u ≠ [] → lookupStr m u = none → u ∈ l →
      lookupStr (resolveAux id k l m) u = some (mkShortUrl id (k + firstIdx u l))
  | [], _, _, _, _, _, hmem => absurd hmem (List.not_mem_nil _)
  | x :: xs, k, m, u, hu, hnone, hmem => by
    by_cases hxu : x = u
    · subst hxu
      have hstep : resolveStep id m k x = m ++ [(x, mkShortUrl id k)] := by
        unfold resolveStep
        rw [if_pos ⟨hu, hnone⟩]
      have hlook : lookupStr (resolveStep id m k x) x = some (mkShortUrl id k) := by
        rw [hstep, lookupStr_append_of_none hnone, lookupStr_cons, if_pos rfl]
      have := resolveAux_lookup_some id xs (k + 1) _ _ _ hlook
      have hidx : firstIdx x (x :: xs) = 0 := by simp [firstIdx]
      rw [resolveAux, hidx, Nat.add_zero]
      exact this
    · have hmem2 : u ∈ xs := by
        rcases List.mem_cons.1 hmem with h | h
        · exact absurd h.symm hxu
        · exact h
      have hnone2 : lookupStr (resolveStep id m k x) u = none := by
        unfold resolveStep
        by_cases hc : x ≠ [] ∧ lookupStr m x = none
        · rw [if_pos hc, lookupStr_append_of_none hnone, lookupStr_cons, if_neg hxu,
            lookupStr_nil]
        · rw [if_neg hc]; exact hnone
      have := resolveAux_lookup_first id xs (k + 1) _ u hu hnone2 hmem2
      have hidx : firstIdx u (x :: xs) = firstIdx u xs + 1 := by
        simp [firstIdx, hxu]
      have harith : k + (firstIdx u xs + 1) = k + 1 + firstIdx u xs := by omega
      rw [resolveAux, hidx, harith]
      exact this

theorem resolveAux_mem (id : Nat) :
    ∀ (l : List Str) (k : Nat) (m : List (Str × Str)) (e : Str × Str),
      e ∈ resolveAux id k l m → e ∈ m ∨ (e.1 ∈ l ∧ e.1 ≠ [])
  | [], _, _, _, h => Or.inl h
  | x :: xs, k, m, e, h => by
    rcases resolveAux_mem id xs (k + 1) _ e h with h2 | h2
    · unfold resolveStep at h2
      by_cases hc : x ≠ [] ∧ lookupStr m x = none
      · rw [if_pos hc] at h2
        rcases List.mem_append.1 h2 with h3 | h3
        · exact Or.inl h3
        · rcases List.mem_singleton.1 h3 with rfl
          exact Or.inr ⟨List.mem_cons_self _ _, hc.1⟩
      · rw [if_neg hc] at h2
        exact Or.inl h2
    · exact Or.inr ⟨List.mem_cons.2 (Or.inr h2.1), h2.2⟩

/-- Entries of a resolved map relate pairwise by distinctness of both
components, and that relation is symmetric. -/
theorem resolvedPairSymm :
    Symmetric (fun a b : Str × Str => a.1 ≠ b.1 ∧ a.2 ≠ b.2) :=
  fun _ _ h => ⟨h.1.symm, h.2.symm⟩

/-- C6: resolveUrls is injective within a batch: distinct urls never share
a short identifier, the map binds each url at most once, a url present in
the scan receives the identifier minted from its first-occurrence index (so
repeats reuse the first mapping), and empty or absent urls get no mapping. -/
theorem c6_resolveUrls_injective (chunks : List GroundingChunk) (id : Nat) :
    (∀ e1 ∈ resolveUrls chunks id, ∀ e2 ∈ resolveUrls chunks id,
        e1.1 ≠ e2.1 → e1.2 ≠ e2.2) ∧
    ((resolveUrls chunks id).map Prod.fst).Nodup ∧
    (∀ u : Str, u ≠ [] → u ∈ chunks.map chunkUrl →
        lookupStr (resolveUrls chunks id) u
          = some (mkShortUrl id (firstIdx u (chunks.map chunkUrl)))) ∧
    (∀ u : Str, u = [] ∨ u ∉ chunks.map chunkUrl →
        lookupStr (resolveUrls chunks id) u = none) := by
  obtain ⟨hbound, hpw⟩ := resolveUrls_inv chunks id
  refine ⟨?_, ?_, ?_, ?_⟩
  · intro e1 h1 e2 h2 hne
    have hne12 : e1 ≠ e2 := fun h => hne (h ▸ rfl)
    exact (hpw.forall resolvedPairSymm h1 h2 hne12).2
  · exact List.pairwise_map.2 (hpw.imp fun h => h.1)
  · intro u hu hmem
    have := resolveAux_lookup_first id (chunks.map chunkUrl) 0 [] u hu
      (lookupStr_nil u) hmem
    simpa [resolveUrls] using this
  · intro u hu
    rw [lookupStr_eq_none_iff]
    intro e he hek
    have he2 : e ∈ resolveAux id 0 (chunks.map chunkUrl) [] := he
    rcases resolveAux_mem id (chunks.map chunkUrl) 0 [] e he2 with h | h
    · exact List.not_mem_nil e h
    · rcases hu with h0 | h0
      · exact h.2 (hek.trans h0)
      · exact h0 (hek ▸ h.1)

/-- A grounding chunk carrying just a uri, used in concrete instances. -/
def uriChunk (u : Str) : GroundingChunk := ⟨some ⟨some u, none⟩⟩

/-- C6 witness: the characterization applied to a batch in which the url
"a" appears twice: it keeps the mapping minted at its first occurrence. -/
theorem c6_witness :
    lookupStr
      (resolveUrls [uriChunk "a".toList, uriChunk "a".toList, uriChunk "b".toList] 7)
      "a".toList = some (mkShortUrl 7 0) :=
  (c6_resolveUrls_injective
      [uriChunk "a".toList, uriChunk "a".toList, uriChunk "b".toList] 7).2.2.1
    "a".toList (by decide) (by decide)

theorem mkShortUrl_length_small {id i : Nat} (h : i < 10) :
    (mkShortUrl id i).length = shortUrlBase.length + (natStr id).length + 2 := by
  simp only [mkShortUrl, natStr_single h, List.length_append, List.length_cons,
    List.length_nil]

/-- C3 (amended): when a batch holds at most ten chunks every minted index
is a single digit, all identifiers of the batch have the same length, and
identifiers of distinct urls never occur inside one another; with eleven
or more chunks the property fails (see the counterexample). -/
theorem c3_small_batch_nonoverlap (chunks : List GroundingChunk) (id : Nat)
    (hlen : chunks.length ≤ 10) :
    ∀ e1 ∈ resolveUrls chunks id, ∀ e2 ∈ resolveUrls chunks id,
      e1.1 ≠ e2.1 → ¬ substrOf e1.2 e2.2 := by
  obtain ⟨hbound, hpw⟩ := resolveUrls_inv chunks id
  intro e1 h1 e2 h2 hne hsub
  obtain ⟨_, i1, hi1, hv1⟩ := hbound e1 h1
  obtain ⟨_, i2, hi2, hv2⟩ := hbound e2 h2
  have hvne : e1.2 ≠ e2.2 := by
    have hne12 : e1 ≠ e2 := fun h => hne (h ▸ rfl)
    exact (hpw.forall resolvedPairSymm h1 h2 hne12).2
  obtain ⟨s, t, hst⟩ := hsub
  have hlen1 : e1.2.length = shortUrlBase.length + (natStr id).length + 2 := by
    rw [hv1]; exact mkShortUrl_length_small (lt_of_lt_of_le hi1 hlen)
  have hlen2 : e2.2.length = shortUrlBase.length + (natStr id).length + 2 := by
    rw [hv2]; exact mkShortUrl_length_small (lt_of_lt_of_le hi2 hlen)
  have hlens := congrArg List.length hst
  simp only [List.length_append] at hlens
  have hs : s.length = 0 := by omega
  have ht : t.length = 0 := by omega
  rw [List.length_eq_zero] at hs ht
  subst hs ht
  simp only [List.nil_append, List.append_nil] at hst
  exact hvne hst

/-- C3 witness: the non-overlap theorem applied to a two-chunk batch. -/
theorem c3_witness :
    ¬ substrOf (mkShortUrl 5 0) (mkShortUrl 5 1) :=
  c3_small_batch_nonoverlap [uriChunk "a".toList, uriChunk "b".toList] 5
    (by decide)
    ("a".toList, mkShortUrl 5 0) (by decide)
    ("b".toList, mkShortUrl 5 1) (by decide)
    (by decide)

/-- C3: in a batch of twelve chunks the identifier minted for index 1 is a
proper substring (indeed a proper prefix) of the identifier minted for
index 11, so the identifiers of one batch are not mutually non-overlapping
and plain substring replacement can over-match. -/
theorem c3_counterexample :
    lookupStr
        (resolveUrls
          [uriChunk "q0".toList, uriChunk "q1".toList, uriChunk "q2".toList,
           uriChunk "q3".toList, uriChunk "q4".toList, uriChunk "q5".toList,
           uriChunk "q6".toList, uriChunk "q7".toList, uriChunk "q8".toList,
           uriChunk "q9".toList, uriChunk "q10".toList, uriChunk "q11".toList] 0)
        "q1".toList = some (mkShortUrl 0 1) ∧
    lookupStr
        (resolveUrls
          [uriChunk "q0".toList, uriChunk "q1".toList, uriChunk "q2".toList,
           uriChunk "q3".toList, uriChunk "q4".toList, uriChunk "q5".toList,
           uriChunk "q6".toList, uriChunk "q7".toList, uriChunk "q8".toList,
           uriChunk "q9".toList, uriChunk "q10".toList, uriChunk "q11".toList] 0)
        "q11".toList = some (mkShortUrl 0 11) ∧
    mkShortUrl 0 1 ≠ mkShortUrl 0 11 ∧
    substrOf (mkShortUrl 0 1) (mkShortUrl 0 11) :=
  ⟨by decide, by decide, by decide, ⟨[], "1".toList, by decide⟩⟩

/-- Mirrors the segment record of a grounding support (types): optional
start and end indices. -/
structure SupportSegment where
  startIndex : Option Nat
  endIndex : Option Nat
deriving DecidableEq, Repr

/-- Mirrors a grounding support entry (types): an optional segment and an
optional list of chunk indices. -/
structure GroundingSupport where
  segment : Option SupportSegment
  groundingChunkIndices : Option (List Nat)
deriving DecidableEq, Repr

/-- Mirrors groundingMetadata (types); the field name groundingChuncks
reproduces the spelling used throughout the source. -/
structure GroundingMetadata where
  groundingChuncks : Option (List GroundingChunk)
  groundingSupports : Option (List GroundingSupport)
deriving DecidableEq, Repr

/-- Mirrors one response candidate (types). -/
structure Candidate where
  groundingMetadata : Option GroundingMetadata
deriving DecidableEq, Repr

/-- Mirrors GoogleAIResponse (types): optional candidate list plus the
generated text, modelling the text() accessor as a field. -/
structure GoogleAIResponse where
  candidates : Option (List Candidate)
  text : Str
deriving DecidableEq, Repr

/-- Split on a single-character separator, as the JavaScript split method
does: splitting the empty string yields one empty piece. -/
def splitOnChar (sep : Char) : Str → List Str
  | [] => [[]]
  | c :: cs =>
    match splitOnChar sep cs with
    | [] => [[]]
    | s :: rest => if c = sep then [] :: s :: rest else (c :: s) :: rest

/-- The label computed for a source (utils, line 135):
title?.split('.').slice(0, -1).join('.') || title || 'Source'; the first
alternative is falsy exactly when it is the empty string. -/
def labelOf (title : Option Str) : Str :=
  match title with
  | none => "Source".toList
  | some t =>
    let d := List.intercalate ".".toList ((splitOnChar '.' t).dropLast)
    if d ≠ [] then d else if t ≠ [] then t else "Source".toList

/-- The source built for one grounding-chunk index (utils, lines 127-139):
none when the index is out of range, the chunk has no web record, the uri
is missing or empty, or the uri is absent from the resolved map (minted map
values are never empty, so the JavaScript falsy test on the looked-up value
is exactly map absence). -/
def segmentOfIndex (chuncks : List GroundingChunk) (m : List (Str × Str))
    (ind : Nat) : Option SourceInfo :=
  match chuncks[ind]? with
  | none => none
  | some chunk =>
    match chunk.web with
    | none => none
    | some w =>
      match w.uri with
      | none => none
      | some u =>
        if u = [] then none
        else
          match lookupStr m u with
          | none => none
          | some resolved => some ⟨labelOf w.title, resolved, u⟩

/-- The loop body of getCitations (utils, lines 106-151): skip a support
with no segment or no end index, default a missing start index to 0,
collect the resolvable sources of its chunk indices, and push the citation
only when at least one source survived. -/
def citePush (chuncks : List GroundingChunk) (m : List (Str × Str))
    (citations : List CitationInfo) (support : GroundingSupport) :
    List CitationInfo :=
  match support.segment with
  | none => citations
  | some seg =>
    match seg.endIndex with
    | none => citations
    | some e =>
      let segs := (support.groundingChunkIndices.getD []).filterMap
        (segmentOfIndex chuncks m)
      if segs ≠ [] then citations ++ [⟨seg.startIndex.getD 0, e, segs⟩]
      else citations

/-- Mirrors getCitations (utils, lines 92-154): guard the nested optional
layers of the response, then run the support loop. -/
def getCitations (response : GoogleAIResponse) (resolvedUrlsMap : List (Str × Str)) :
    List CitationInfo :=
  match response.candidates with
  | none => []
  | some [] => []
  | some (candidate :: _) =>
    match candidate.groundingMetadata with
    | none => []
    | some md =>
      match md.groundingSupports with
      | none => []
      | some supports =>
        supports.foldl (citePush (md.groundingChuncks.getD []) resolvedUrlsMap) []

/-- The grounding chunks of a response: candidates?.[0]?.groundingMetadata?.
groundingChuncks || [] (nodes, line 310). -/
def chunksOf (response : GoogleAIResponse) : List GroundingChunk :=
  match response.candidates with
  | some (c :: _) =>
    match c.groundingMetadata with
    | some md => md.groundingChuncks.getD []
    | none => []
  | _ => []

/-- The grounding supports of a response, with the same guard layering. -/
def supportsOf (response : GoogleAIResponse) : List GroundingSupport :=
  match response.candidates with
  | some (c :: _) =>
    match c.groundingMetadata with
    | some md => md.groundingSupports.getD []
    | none => []
  | _ => []

/-- Modelled from the spec: the citation extracted from one grounding
support, written declaratively — a support carrying an end offset (a
missing start offset defaults to 0) with at least one resolvable chunk
yields a citation, every other support yields none. -/
def citationOfSupport (chuncks : List GroundingChunk) (m : List (Str × Str))
    (support : GroundingSupport) : Option CitationInfo :=
  match support.segment with
  | none => none
  | some seg =>
    match seg.endIndex with
    | none => none
    | some e =>
      let segs := (support.groundingChunkIndices.getD []).filterMap
        (segmentOfIndex chuncks m)
      if segs ≠ [] then some ⟨seg.startIndex.getD 0, e, segs⟩ else none

theorem citePush_toList (chuncks : List GroundingChunk) (m : List (Str × Str))
    (citations : List CitationInfo) (support : GroundingSupport) :
    citePush chuncks m citations support
      = citations ++ (citationOfSupport chuncks m support).toList := by
  unfold citePush citationOfSupport
  rcases hseg : support.segment with _ | seg
  · simp
  · rcases he : seg.endIndex with _ | e
    · simp [he]
    · by_cases hs : (support.groundingChunkIndices.getD []).filterMap
          (segmentOfIndex chuncks m) ≠ []
      · simp [he, hs]
      · simp [he, hs]

theorem foldl_citePush (chuncks : List GroundingChunk) (m : List (Str × Str)) :
    ∀ (supports : List GroundingSupport) (acc : List CitationInfo),
      supports.foldl (citePush chuncks m) acc
        = acc ++ supports.filterMap (citationOfSupport chuncks m)
  | [], acc => by simp
  | s :: ss, acc => by
    rw [List.foldl_cons, citePush_toList, foldl_citePush chuncks m ss]
    rcases hc : citationOfSupport chuncks m s with _ | c
    · simp [List.filterMap_cons, hc]
    · simp [List.filterMap_cons, hc]

/-- C5 (amended): getCitations yields exactly one citation per grounding
support that carries an end offset (a missing start offset defaults to 0)
and keeps at least one chunk resolvable through the url map — the loop with
its accumulator equals the declarative per-support extraction — and every
produced citation carries at least one source. -/
theorem c5_getCitations_characterization (response : GoogleAIResponse)
    (m : List (Str × Str)) :
    getCitations response m
        = (supportsOf response).filterMap (citationOfSupport (chunksOf response) m) ∧
    ∀ c ∈ getCitations response m, c.segments ≠ [] := by
  have h1 : getCitations response m
      = (supportsOf response).filterMap (citationOfSupport (chunksOf response) m) := by
    rcases hcand : response.candidates with _ | cs
    · simp [getCitations, supportsOf, hcand]
    · rcases cs with _ | ⟨c, rest⟩
      · simp [getCitations, supportsOf, hcand]
      · rcases hmd : c.groundingMetadata with _ | md
        · simp [getCitations, supportsOf, hcand, hmd]
        · rcases hsup : md.groundingSupports with _ | supports
          · simp [getCitations, supportsOf, hcand, hmd, hsup]
          · simp only [getCitations, supportsOf, chunksOf, hcand, hmd, hsup]
            rw [foldl_citePush]
            simp
  refine ⟨h1, ?_⟩
  intro c hc
  rw [h1] at hc
  obtain ⟨s, hs, hcs⟩ := List.mem_filterMap.1 hc
  unfold citationOfSupport at hcs
  split at hcs
  · exact Option.noConfusion hcs
  · split at hcs
    · exact Option.noConfusion hcs
    · dsimp only at hcs
      split at hcs
      · have := Option.some.inj hcs
        rw [← this]
        assumption
      · exact Option.noConfusion hcs

/-- C5: a grounding support that carries an end offset but NO start offset
still produces a citation — the missing start offset is defaulted to 0, it
does not disqualify the entry as the claim requires — and the label strips
the trailing dot-suffix of the title. -/
theorem c5_counterexample :
    getCitations
        ⟨some [⟨some ⟨some [⟨some ⟨some "u".toList, some "T.x".toList⟩⟩],
            some [⟨some ⟨none, some 5⟩, some [0]⟩]⟩⟩], "t".toList⟩
        [("u".toList, "s".toList)]
      = [⟨0, 5, [⟨"T".toList, "s".toList, "u".toList⟩]⟩] := by
  decide

/-- Mirrors a generated query entry (nodes, line 255). -/
structure Query where
  query : Str
  rationale : Str
deriving DecidableEq, Repr

/-- Mirrors interface SendObject (types) for the webResearch fan-out: the
target node name plus the two arguments every emitted item carries. -/
structure SendObject where
  node : Str
  searchQuery : Str
  id : Nat
deriving DecidableEq, Repr

/-- Result of a conditional-edge routing function: a single node name or a
fan-out list of Send objects. -/
inductive RouteResult where
  | node (name : Str)
  | sends (items : List SendObject)
deriving DecidableEq, Repr

/-- The graph-state fields consulted by the embedded node and routing
functions (graph annotation, lines 196-249); maxResearchLoops is optional
because evaluateResearch falls back to the configuration value with ??. -/
structure OverallState where
  searchQuery : List Str
  webResearchResult : List Str
  sourcesGathered : List SourceInfo
  maxResearchLoops : Option Nat
  researchLoopCount : Nat
  queryList : List Query
  isSufficient : Bool
  knowledgeGap : Str
  followUpQueries : List Str
  numberOfRanQueries : Nat
deriving Repr

/-- JavaScript Array.prototype.map observed with the element index, the
index starting from an arbitrary offset. -/
def mapFrom {α β : Type} (f : Nat → α → β) : Nat → List α → List β
  | _, [] => []
  | n, a :: as => f n a :: mapFrom f (n + 1) as

/-- Mirrors continueToWebResearch (nodes, lines 263-268): one Send per
generated query, id = position in the query list. -/
def continueToWebResearch (state : OverallState) : List SendObject :=
  mapFrom (fun idx q => ⟨"webResearch".toList, q.query, idx⟩) 0 state.queryList

/-- Mirrors evaluateResearch (nodes, lines 406-431): finalize when the
reflection judged the results sufficient or the loop counter reached the
effective maximum (state value, falling back to the configured one);
otherwise one Send per follow-up query with ids continuing from
numberOfRanQueries. -/
def evaluateResearch (state : OverallState) (configMaxLoops : Nat) : RouteResult :=
  if state.isSufficient = true ∨
      state.maxResearchLoops.getD configMaxLoops ≤ state.researchLoopCount then
    .node "finalizeAnswer".toList
  else
    .sends (mapFrom
      (fun idx q => ⟨"webResearch".toList, q, state.numberOfRanQueries + idx⟩)
      0 state.followUpQueries)

/-- Mirrors the structured reply of the reflection model (types). -/
structure ReflectionResponse where
  isSufficient : Bool
  knowledgeGap : Str
  followUpQueries : Option (List Str)
deriving Repr

/-- The partial state update returned by reflection (nodes, lines 391-397). -/
structure ReflectionUpdate where
  isSufficient : Bool
  knowledgeGap : Str
  followUpQueries : List Str
  researchLoopCount : Nat
  numberOfRanQueries : Nat
deriving Repr

/-- Mirrors reflection (nodes, lines 349-398) with the model reply fixed:
the loop counter becomes its previous value plus one and numberOfRanQueries
becomes the length of the accumulated searchQuery sequence. (The source
name reflection is taken by the ambient library, hence the Node suffix.) -/
def reflectionNode (state : OverallState) (result : ReflectionResponse) :
    ReflectionUpdate :=
  { isSufficient := result.isSufficient
    knowledgeGap := result.knowledgeGap
    followUpQueries := result.followUpQueries.getD []
    researchLoopCount := state.researchLoopCount + 1
    numberOfRanQueries := state.searchQuery.length }

/-- C2: evaluateResearch routes to finalizeAnswer exactly when isSufficient
holds or the loop counter reached the effective maximum; reflection always
increments the counter by one; hence with maximum 2 and an insufficient
verdict the controller finalizes exactly once the counter reaches 2. -/
theorem c2_evaluate_research_routing :
    (∀ (state : OverallState) (configMaxLoops : Nat),
      evaluateResearch state configMaxLoops = .node "finalizeAnswer".toList ↔
        (state.isSufficient = true ∨
          state.maxResearchLoops.getD configMaxLoops ≤ state.researchLoopCount)) ∧
    (∀ (state : OverallState) (result : ReflectionResponse),
      (reflectionNode state result).researchLoopCount = state.researchLoopCount + 1) ∧
    (∀ (state : OverallState),
      state.maxResearchLoops = some 2 → state.isSufficient = false →
      (evaluateResearch state 2 = .node "finalizeAnswer".toList ↔
        2 ≤ state.researchLoopCount)) := by
  have hmain : ∀ (state : OverallState) (configMaxLoops : Nat),
      evaluateResearch state configMaxLoops = .node "finalizeAnswer".toList ↔
        (state.isSufficient = true ∨
          state.maxResearchLoops.getD configMaxLoops ≤ state.researchLoopCount) := by
    intro state cfg
    unfold evaluateResearch
    by_cases h : state.isSufficient = true ∨
        state.maxResearchLoops.getD cfg ≤ state.researchLoopCount
    · rw [if_pos h]
      exact ⟨fun _ => h, fun _ => rfl⟩
    · rw [if_neg h]
      exact ⟨fun hx => RouteResult.noConfusion hx, fun hx => absurd hx h⟩
  refine ⟨hmain, fun state result => rfl, ?_⟩
  intro state hmax hsuff
  rw [hmain state 2, hmax, hsuff]
  simp

/-- C2 witness: a state with an insufficient verdict, maximum 2 and the
counter at 2 routes to finalizeAnswer, while the same state with the
counter at 1 does not. -/
theorem c2_witness :
    evaluateResearch ⟨[], [], [], some 2, 2, [], false, [], [], 0⟩ 2
        = .node "finalizeAnswer".toList ∧
    ¬ (evaluateResearch ⟨[], [], [], some 2, 1, [], false, [], [], 0⟩ 2
        = .node "finalizeAnswer".toList) :=
  ⟨(c2_evaluate_research_routing.2.2 ⟨[], [], [], some 2, 2, [], false, [], [], 0⟩
      rfl rfl).2 (by decide),
   fun h =>
    absurd ((c2_evaluate_research_routing.2.2 ⟨[], [], [], some 2, 1, [], false, [], [], 0⟩
      rfl rfl).1 h) (by decide)⟩

/-- The ids start, start+1, ..., start+len-1 in order. -/
def natsFrom : Nat → Nat → List Nat
  | _, 0 => []
  | s, len + 1 => s :: natsFrom (s + 1) len

theorem mem_natsFrom : ∀ (len s x : Nat), x ∈ natsFrom s len ↔ s ≤ x ∧ x < s + len
  | 0, s, x => by simp [natsFrom]
  | len + 1, s, x => by
    simp [natsFrom, mem_natsFrom len (s + 1) x]
    omega

theorem mapFrom_send_ids (nodeName : Str) (base : Nat) :
    ∀ (l : List Str) (n : Nat),
      (mapFrom (fun idx q => SendObject.mk nodeName q (base + idx)) n l).map
          SendObject.id
        = natsFrom (base + n) l.length
  | [], n => rfl
  | q :: qs, n => by
    simp only [mapFrom, List.map_cons, List.length_cons, natsFrom]
    rw [mapFrom_send_ids nodeName base qs (n + 1), ← Nat.add_assoc]

theorem mapFrom_send_node (nodeName : Str) (base : Nat) :
    ∀ (l : List Str) (n : Nat) (it : SendObject),
      it ∈ mapFrom (fun idx q => SendObject.mk nodeName q (base + idx)) n l →
      it.node = nodeName
  | [], _, it, h => absurd h (List.not_mem_nil it)
  | q :: qs, n, it, h => by
    rcases List.mem_cons.1 h with h2 | h2
    · rw [h2]
    · exact mapFrom_send_node nodeName base qs (n + 1) it h2

theorem mapFrom_length {α β : Type} (f : Nat → α → β) :
    ∀ (l : List α) (n : Nat), (mapFrom f n l).length = l.length
  | [], _ => rfl
  | a :: as, n => by
    simp only [mapFrom, List.length_cons, mapFrom_length f as (n + 1)]

/-- C8: when evaluateResearch does not route to finalizeAnswer it emits one
Send per follow-up query, each targeting webResearch, with ids
numberOfRanQueries, numberOfRanQueries + 1, ... in order; so every id in
the batch is at least numberOfRanQueries and cannot collide with any id
minted earlier when those are all below numberOfRanQueries; the initial
fan-out of continueToWebResearch mints ids 0 .. N-1. -/
theorem c8_fanout_ids (state : OverallState) (configMaxLoops : Nat)
    (h : evaluateResearch state configMaxLoops ≠ .node "finalizeAnswer".toList) :
    (∃ items : List SendObject,
      evaluateResearch state configMaxLoops = .sends items ∧
      items.length = state.followUpQueries.length ∧
      (∀ it ∈ items, it.node = "webResearch".toList) ∧
      items.map SendObject.id
        = natsFrom state.numberOfRanQueries state.followUpQueries.length ∧
      (∀ prev, prev < state.numberOfRanQueries → prev ∉ items.map SendObject.id)) ∧
    (continueToWebResearch state).map SendObject.id
      = natsFrom 0 state.queryList.length := by
  constructor
  · have hcond : ¬ (state.isSufficient = true ∨
        state.maxResearchLoops.getD configMaxLoops ≤ state.researchLoopCount) := by
      intro hc
      apply h
      unfold evaluateResearch
      rw [if_pos hc]
    refine ⟨mapFrom
        (fun idx q => ⟨"webResearch".toList, q, state.numberOfRanQueries + idx⟩)
        0 state.followUpQueries, ?_, ?_, ?_, ?_, ?_⟩
    · unfold evaluateResearch
      rw [if_neg hcond]
    · exact mapFrom_length _ state.followUpQueries 0
    · exact fun it hit =>
        mapFrom_send_node "webResearch".toList state.numberOfRanQueries
          state.followUpQueries 0 it hit
    · have := mapFrom_send_ids "webResearch".toList state.numberOfRanQueries
        state.followUpQueries 0
      rw [this, Nat.add_zero]
    · intro prev hprev hmem
      rw [mapFrom_send_ids "webResearch".toList state.numberOfRanQueries
        state.followUpQueries 0] at hmem
      have := (mem_natsFrom state.followUpQueries.length
        (state.numberOfRanQueries + 0) prev).1 hmem
      omega
  · have h0 : ∀ (l : List Query) (n : Nat),
        (mapFrom (fun idx q => SendObject.mk "webResearch".toList q.query idx) n l).map
            SendObject.id = natsFrom n l.length := by
      intro l
      induction l with
      | nil => intro n; rfl
      | cons q qs ih =>
        intro n
        simp only [mapFrom, List.map_cons, List.length_cons, natsFrom]
        rw [ih (n + 1)]
    exact h0 state.queryList 0

/-- C8 witness: the fan-out theorem applied to a non-finalizing state with
two follow-up queries and three queries already ran. -/
theorem c8_witness :
    (∃ items : List SendObject,
      evaluateResearch
          ⟨["a".toList, "b".toList, "c".toList], [], [], some 2, 1, [],
            false, [], ["f".toList, "g".toList], 3⟩ 2 = .sends items ∧
      items.length = 2 ∧
      (∀ it ∈ items, it.node = "webResearch".toList) ∧
      items.map SendObject.id = natsFrom 3 2 ∧
      (∀ prev, prev < 3 → prev ∉ items.map SendObject.id)) ∧
    (continueToWebResearch
        ⟨["a".toList, "b".toList, "c".toList], [], [], some 2, 1, [],
          false, [], ["f".toList, "g".toList], 3⟩).map SendObject.id
      = natsFrom 0 0 :=
  c8_fanout_ids
    ⟨["a".toList, "b".toList, "c".toList], [], [], some 2, 1, [],
      false, [], ["f".toList, "g".toList], 3⟩ 2 (by decide)

/-- The partial state update returned by webResearch (nodes, lines 325-329
and 335-339). -/
structure WebUpdate where
  sourcesGathered : List SourceInfo
  searchQuery : List Str
  webResearchResult : List Str
deriving DecidableEq, Repr

/-- The annotated failure entry of the degraded update (nodes, line 338). -/
def errText (searchQuery msg : Str) : Str :=
  "Research for \"".toList ++ searchQuery
    ++ "\" - No results found due to error: ".toList ++ msg

/-- Mirrors webResearch (nodes, lines 276-341), the outcome of the external
grounded-search call abstracted as an Except value: on success the citation
pipeline runs over the response (resolve urls with the branch id, extract
citations, splice markers into the response text, flatten the citation
segments into gathered sources); on failure the node catches the error and
returns the degraded update. -/
def webResearch (searchQuery : Str) (id : Nat)
    (outcome : Except Str GoogleAIResponse) : WebUpdate :=
  match outcome with
  | .error msg =>
    ⟨[], [searchQuery], [errText searchQuery msg]⟩
  | .ok response =>
    let resolvedUrls := resolveUrls (chunksOf response) id
    let citations := getCitations response resolvedUrls
    let modifiedText := insertCitationMarkers response.text citations
    ⟨(citations.map CitationInfo.segments).flatten, [searchQuery], [modifiedText]⟩

/-- Mirrors stateReducers.arrayAccumulator (state, lines 35-41) for the
updates the graph sends to accumulate-type fields, which are always an
array or absent: an absent update is a no-op, an array is appended. -/
def arrayAccumulator {α : Type} (current : List α) (update : Option (List α)) :
    List α :=
  match update with
  | none => current
  | some l => current ++ l

/-- C9: when the external search call fails, webResearch recovers locally:
it returns the degraded update with no gathered sources, the dispatched
query as the searchQuery contribution, and one research-result entry that
carries the failure message (the message is a suffix of the entry and the
query occurs inside it). -/
theorem c9_web_research_failure (searchQuery msg : Str) (id : Nat) :
    webResearch searchQuery id (.error msg)
        = ⟨[], [searchQuery], [errText searchQuery msg]⟩ ∧
    substrOf msg (errText searchQuery msg) ∧
    substrOf searchQuery (errText searchQuery msg) := by
  refine ⟨rfl, ⟨"Research for \"".toList ++ searchQuery
      ++ "\" - No results found due to error: ".toList, [], ?_⟩,
    ⟨"Research for \"".toList,
      "\" - No results found due to error: ".toList ++ msg, ?_⟩⟩
  · simp [errText]
  · simp [errText]

/-- C10: in both the success and the failure branch webResearch contributes
exactly the one-element list holding the dispatched query to searchQuery
and exactly one webResearchResult entry; pushing that contribution through
the array accumulator grows the accumulated searchQuery by exactly one; and
reflection records numberOfRanQueries as the length of the accumulated
searchQuery sequence. -/
theorem c10_branch_contributions (searchQuery : Str) (id : Nat)
    (outcome : Except Str GoogleAIResponse) (current : List Str)
    (state : OverallState) (result : ReflectionResponse) :
    (webResearch searchQuery id outcome).searchQuery = [searchQuery] ∧
    (webResearch searchQuery id outcome).webResearchResult.length = 1 ∧
    arrayAccumulator current (some (webResearch searchQuery id outcome).searchQuery)
        = current ++ [searchQuery] ∧
    (arrayAccumulator current
        (some (webResearch searchQuery id outcome).searchQuery)).length
        = current.length + 1 ∧
    (reflectionNode state result).numberOfRanQueries = state.searchQuery.length := by
  have hq : (webResearch searchQuery id outcome).searchQuery = [searchQuery] := by
    rcases outcome with msg | response <;> rfl
  have hr : (webResearch searchQuery id outcome).webResearchResult.length = 1 := by
    rcases outcome with msg | response <;> rfl
  refine ⟨hq, hr, ?_, ?_, rfl⟩
  · rw [hq]; rfl
  · rw [hq]
    simp [arrayAccumulator]

/-- JavaScript String.prototype.includes for a pattern: the pattern occurs
contiguously in the string. -/
def hasSubstr (pat : Str) : Str → Bool
  | [] => pat.isEmpty
  | c :: cs => pat.isPrefixOf (c :: cs) || hasSubstr pat cs

/-- Fuel-indexed global replacement: scan left to right, replace each
occurrence of the pattern and continue after it without rescanning the
replacement, as the escaped global regex at nodes line 482-483 does. Fuel =
length of the string makes the recursion structural. -/
def replaceAllAux (pat rep : Str) : Nat → Str → Str
  | _, [] => []
  | 0, s => s
  | fuel + 1, c :: cs =>
    if pat ≠ [] ∧ pat.isPrefixOf (c :: cs) then
      rep ++ replaceAllAux pat rep fuel (List.drop (pat.length - 1) cs)
    else c :: replaceAllAux pat rep fuel cs

/-- Replace every occurrence of pat in s by rep. -/
def replaceAll (s pat rep : Str) : Str := replaceAllAux pat rep s.length s

/-- The running state of the final-answer rewrite loop (nodes, lines
476-479): the progressively rewritten answer, the set of seen urls and the
collected unique sources. -/
structure FinalAcc where
  content : Str
  seen : List Str
  uniq : List SourceInfo
deriving DecidableEq, Repr

/-- One iteration of the rewrite loop (nodes, lines 480-491): only when the
source has a non-empty short url occurring in the current answer text are
all its occurrences replaced by the original url, and only then is the
source recorded — once per distinct original url. -/
def finalizeStep (acc : FinalAcc) (source : SourceInfo) : FinalAcc :=
  if source.shortUrl ≠ [] ∧ hasSubstr source.shortUrl acc.content = true then
    { content := replaceAll acc.content source.shortUrl source.value
      seen := if source.value ∈ acc.seen then acc.seen else source.value :: acc.seen
      uniq := if source.value ∈ acc.seen then acc.uniq else acc.uniq ++ [source] }
  else acc

/-- The rewrite-and-dedup loop of finalizeAnswer (nodes, lines 476-491)
applied to the model answer and the gathered sources. -/
def finalizeSources (content : Str) (sources : List SourceInfo) : FinalAcc :=
  sources.foldl finalizeStep ⟨content, [], []⟩

/-- The dedup loop of formatSources (utils, lines 166-174): keep the first
source per distinct original url. -/
def uniqueByValue (seen : List Str) : List SourceInfo → List SourceInfo
  | [] => []
  | s :: rest =>
    if s.value ∈ seen then uniqueByValue seen rest
    else s :: uniqueByValue (s.value :: seen) rest

/-- Mirrors formatSources (utils, lines 161-179): render the first-seen
unique sources as numbered lines. -/
def formatSources (sources : List SourceInfo) : Str :=
  List.intercalate "\n".toList
    (mapFrom (fun index s =>
        "[".toList ++ natStr (index + 1) ++ "] ".toList ++ s.label
          ++ ": ".toList ++ s.value) 0 (uniqueByValue [] sources))

/-- Modelled from the spec: one entry per distinct original url of the
gathered value list, in first-seen order. -/
def specDedupValues (seen : List Str) : List Str → List Str
  | [] => []
  | v :: vs =>
    if v ∈ seen then specDedupValues seen vs
    else v :: specDedupValues (v :: seen) vs

theorem finalize_uniq_invariant :
    ∀ (sources : List SourceInfo) (acc : FinalAcc),
      ((acc.uniq.map SourceInfo.value).Nodup) →
      (∀ v ∈ acc.uniq.map SourceInfo.value, v ∈ acc.seen) →
      (((sources.foldl finalizeStep acc).uniq.map SourceInfo.value).Nodup ∧
        ∃ added, (sources.foldl finalizeStep acc).uniq = acc.uniq ++ added ∧
          added.Sublist sources)
  | [], acc, hnd, _ => ⟨hnd, [], by simp, List.nil_sublist []⟩
  | s :: ss, acc, hnd, hsub => by
    rw [List.foldl_cons]
    by_cases hg : s.shortUrl ≠ [] ∧ hasSubstr s.shortUrl acc.content = true
    · by_cases hv : s.value ∈ acc.seen
      · have hstep : finalizeStep acc s =
            ⟨replaceAll acc.content s.shortUrl s.value, acc.seen, acc.uniq⟩ := by
          unfold finalizeStep
          rw [if_pos hg]
          simp only [if_pos hv]
        rw [hstep]
        obtain ⟨hnodup, added, heq, hsubl⟩ :=
          finalize_uniq_invariant ss
            ⟨replaceAll acc.content s.shortUrl s.value, acc.seen, acc.uniq⟩ hnd hsub
        exact ⟨hnodup, added, heq, hsubl.cons s⟩
      · have hstep : finalizeStep acc s =
            ⟨replaceAll acc.content s.shortUrl s.value, s.value :: acc.seen,
              acc.uniq ++ [s]⟩ := by
          unfold finalizeStep
          rw [if_pos hg]
          simp only [if_neg hv]
        rw [hstep]
        have hnd2 : (((acc.uniq ++ [s]).map SourceInfo.value)).Nodup := by
          rw [List.map_append]
          rw [List.nodup_append]
          refine ⟨hnd, List.nodup_singleton _, ?_⟩
          intro v hvmem hvs
          rcases List.mem_singleton.1 hvs with rfl
          exact hv (hsub _ hvmem)
        have hsub2 : ∀ v ∈ (acc.uniq ++ [s]).map SourceInfo.value,
            v ∈ s.value :: acc.seen := by
          intro v hvmem
          rw [List.map_append] at hvmem
          rcases List.mem_append.1 hvmem with h2 | h2
          · exact List.mem_cons.2 (Or.inr (hsub _ h2))
          · rcases List.mem_singleton.1 h2 with rfl
            exact List.mem_cons_self _ _
        obtain ⟨hnodup, added, heq, hsubl⟩ :=
          finalize_uniq_invariant ss
            ⟨replaceAll acc.content s.shortUrl s.value, s.value :: acc.seen,
              acc.uniq ++ [s]⟩ hnd2 hsub2
        refine ⟨hnodup, s :: added, ?_, List.Sublist.cons₂ s hsubl⟩
        rw [heq, List.append_assoc, List.singleton_append]
    · have hstep : finalizeStep acc s = acc := by
        unfold finalizeStep
        rw [if_neg hg]
      rw [hstep]
      obtain ⟨hnodup, added, heq, hsubl⟩ :=
        finalize_uniq_invariant ss acc hnd hsub
      exact ⟨hnodup, added, heq, hsubl.cons s⟩

theorem uniqueByValue_values :
    ∀ (l : List SourceInfo) (seen : List Str),
      (uniqueByValue seen l).map SourceInfo.value
        = specDedupValues seen (l.map SourceInfo.value)
  | [], _ => rfl
  | s :: rest, seen => by
    by_cases hv : s.value ∈ seen
    · simp [uniqueByValue, specDedupValues, hv, uniqueByValue_values rest seen]
    · simp [uniqueByValue, specDedupValues, hv,
        uniqueByValue_values rest (s.value :: seen)]

/-- C4 (amended): the unique-source list returned by finalizeAnswer is a
subsequence of the gathered list — only sources whose short identifier was
found in the answer text at their turn, kept in first-seen order — with
pairwise-distinct original urls; the unconditional first-seen dedup of the
claim holds for the formatSources dedup loop, which collapses the gathered
values [a, a, b] to [a, b]. -/
theorem c4_finalize_dedup (content : Str) (sources : List SourceInfo) :
    ((finalizeSources content sources).uniq.map SourceInfo.value).Nodup ∧
    (finalizeSources content sources).uniq.Sublist sources ∧
    (uniqueByValue [] sources).map SourceInfo.value
        = specDedupValues [] (sources.map SourceInfo.value) ∧
    specDedupValues []
        ["http://a".toList, "http://a".toList, "http://b".toList]
        = ["http://a".toList, "http://b".toList] := by
  obtain ⟨hnodup, added, heq, hsubl⟩ :=
    finalize_uniq_invariant sources ⟨content, [], []⟩ (by simp) (by simp)
  refine ⟨hnodup, ?_, uniqueByValue_values sources [], by decide⟩
  show (sources.foldl finalizeStep ⟨content, [], []⟩).uniq.Sublist sources
  rw [heq, List.nil_append]
  exact hsubl

/-- C4: a gathered source whose short identifier does not occur in the
answer text is dropped from the returned unique-source list, so the list
does not hold one entry per distinct gathered url: here the gathered list
has one url yet the returned list is empty. -/
theorem c4_counterexample :
    (finalizeSources "hello".toList
        [⟨"L".toList, "s1".toList, "http://a".toList⟩]).uniq.map SourceInfo.value
      = [] ∧
    specDedupValues []
        ([(⟨"L".toList, "s1".toList, "http://a".toList⟩ : SourceInfo)].map
          SourceInfo.value)
      = ["http://a".toList] := by
  exact ⟨by decide, by decide⟩
